import Mathlib

/-!
Verification of the pool-reference storage engine (`pool/store.py`).

The store keeps two SQLite tables:
  * `farmer` — one row per farmer, keyed by the hex text of `launcher_id`;
  * `partial` — append-only rows `(launcher_id hex text, timestamp, difficulty)`.

We shallow-embed the tables as Lean lists of row structures.  Text columns
are `String`, blob columns are byte lists (`List Nat`, each element < 256),
integer columns are `Nat`.  Python's `bytes.hex()` / `bytes.fromhex` are
modelled explicitly; opaque blobs (`G1Element`, `CoinSolution`, `PoolState`)
are modelled as their canonical byte serialisations, with `bytes`/`from_bytes`
the identity, since the store only round-trips them verbatim.  Fallible
Python code (exceptions from `bytes.fromhex`, `bytes32`, blob parsing) is
modelled with `Option`.
-/

namespace PoolStore

/-- Lowercase hex digit for a value below 16, as produced by Python's
`bytes.hex()` (`'0'`–`'9'` then `'a'`–`'f'`). -/
def hexDigitChar (n : Nat) : Char :=
  if n < 10 then Char.ofNat (48 + n) else Char.ofNat (87 + n)

/-- The two lowercase hex digits encoding one byte, high nibble first. -/
def byteToHex (b : Nat) : List Char :=
  [hexDigitChar (b / 16), hexDigitChar (b % 16)]

/-- Character list of the lowercase hex encoding of a byte string. -/
def bytesToHexChars : List Nat → List Char
  | [] => []
  | b :: rest => byteToHex b ++ bytesToHexChars rest

/-- Python `bytes.hex()`: lowercase hex text of a byte string. -/
def bytesToHex (bs : List Nat) : String :=
  String.mk (bytesToHexChars bs)

/-- Value of one hex digit, accepting both cases, as `bytes.fromhex` does. -/
def hexCharVal (c : Char) : Option Nat :=
  if 48 ≤ c.toNat ∧ c.toNat ≤ 57 then some (c.toNat - 48)
  else if 97 ≤ c.toNat ∧ c.toNat ≤ 102 then some (c.toNat - 87)
  else if 65 ≤ c.toNat ∧ c.toNat ≤ 70 then some (c.toNat - 55)
  else none

/-- Core of Python `bytes.fromhex`: consumes two hex digits per byte,
skipping spaces between byte pairs, failing on anything else. -/
def fromhexAux : List Char → Option (List Nat)
  | [] => some []
  | c :: rest =>
    if c = ' ' then fromhexAux rest
    else
      match rest with
      | [] => none
      | c2 :: rest2 =>
        match hexCharVal c, hexCharVal c2 with
        | some hi, some lo => (fromhexAux rest2).map (fun bs => (hi * 16 + lo) :: bs)
        | _, _ => none

/-- Python `bytes.fromhex`: decode hex text to bytes, `none` on error. -/
def fromhex (s : String) : Option (List Nat) :=
  fromhexAux s.data

/-- A byte string proper: every element fits in one byte. -/
def validBytes (bs : List Nat) : Prop := ∀ b ∈ bs, b < 256

instance (bs : List Nat) : Decidable (validBytes bs) :=
  List.decidableBAll _ bs

theorem hexDigitChar_spec :
    ∀ n, n < 16 → hexCharVal (hexDigitChar n) = some n ∧ hexDigitChar n ≠ ' ' := by
  decide

theorem fromhexAux_bytesToHexChars (bs : List Nat) (h : validBytes bs) :
    fromhexAux (bytesToHexChars bs) = some bs := by
  induction bs with
  | nil => rfl
  | cons b rest ih =>
    have hb : b < 256 := h b (List.mem_cons_self b rest)
    have hhi : b / 16 < 16 := by omega
    have hlo : b % 16 < 16 := by omega
    have h1 := hexDigitChar_spec (b / 16) hhi
    have h2 := hexDigitChar_spec (b % 16) hlo
    have hrest : validBytes rest := fun x hx => h x (List.mem_cons_of_mem b hx)
    show fromhexAux (hexDigitChar (b / 16) :: hexDigitChar (b % 16) :: bytesToHexChars rest)
        = some (b :: rest)
    rw [fromhexAux, if_neg h1.2, h1.1, h2.1, ih hrest]
    have : b / 16 * 16 + b % 16 = b := by omega
    simp [this]

/-- Decoding inverts encoding on byte strings. -/
theorem fromhex_bytesToHex (bs : List Nat) (h : validBytes bs) :
    fromhex (bytesToHex bs) = some bs := by
  simpa [fromhex, bytesToHex] using fromhexAux_bytesToHexChars bs h

/-- Hex encoding is injective on byte strings. -/
theorem bytesToHex_injective {a b : List Nat} (ha : validBytes a) (hb : validBytes b)
    (h : bytesToHex a = bytesToHex b) : a = b := by
  have := fromhex_bytesToHex a ha
  rw [h, fromhex_bytesToHex b hb] at this
  exact (Option.some.injEq _ _ ▸ this).symm

/-- The in-memory farmer record (`FarmerRecord` in `store.py`).  The three
blockchain objects are carried as their canonical byte serialisations. -/
structure FarmerRecord where
  launcher_id : List Nat
  p2_singleton_puzzle_hash : List Nat
  authentication_public_key : List Nat
  singleton_tip : List Nat
  singleton_tip_state : List Nat
  points : Nat
  difficulty : Nat
  payout_instructions : String
  is_pool_member : Bool
  deriving DecidableEq, Repr

/-- One row of the `farmer` table, in its SQLite column types: hex text for
the two 32-byte ids and the public key, blobs for the two serialised
objects, integers for points, difficulty, and the membership flag. -/
structure Row where
  launcher_id : String
  p2_singleton_puzzle_hash : String
  authentication_public_key : String
  singleton_tip : List Nat
  singleton_tip_state : List Nat
  points : Nat
  difficulty : Nat
  payout_instructions : String
  is_pool_member : Nat
  deriving DecidableEq, Repr

/-- A valid record: the sized byte fields have their documented lengths,
all byte fields are byte strings, and the two counters fit in 64 bits. -/
def FarmerRecord.valid (r : FarmerRecord) : Prop :=
  r.launcher_id.length = 32 ∧ validBytes r.launcher_id ∧
  r.p2_singleton_puzzle_hash.length = 32 ∧ validBytes r.p2_singleton_puzzle_hash ∧
  r.authentication_public_key.length = 48 ∧ validBytes r.authentication_public_key ∧
  validBytes r.singleton_tip ∧ validBytes r.singleton_tip_state ∧
  r.points < 2 ^ 64 ∧ r.difficulty < 2 ^ 64

instance (r : FarmerRecord) : Decidable r.valid := by
  unfold FarmerRecord.valid; infer_instance

/-- The VALUES tuple of `add_farmer_record`: how a record is encoded into
a `farmer` row (`launcher_id.hex()`, …, `int(is_pool_member)`). -/
def farmerRecordToRow (r : FarmerRecord) : Row where
  launcher_id := bytesToHex r.launcher_id
  p2_singleton_puzzle_hash := bytesToHex r.p2_singleton_puzzle_hash
  authentication_public_key := bytesToHex r.authentication_public_key
  singleton_tip := r.singleton_tip
  singleton_tip_state := r.singleton_tip_state
  points := r.points
  difficulty := r.difficulty
  payout_instructions := r.payout_instructions
  is_pool_member := if r.is_pool_member then 1 else 0

/-- `PoolStore._row_to_farmer_record`: decode a `farmer` row back into a
record.  `none` models the exception raised when a hex column does not
decode (`bytes.fromhex`); blob parsing is the identity on the stored
serialisation.  `True if row[8] == 1 else False` becomes an equality test. -/
def row_to_farmer_record (row : Row) : Option FarmerRecord :=
  match fromhex row.launcher_id, fromhex row.p2_singleton_puzzle_hash,
      fromhex row.authentication_public_key with
  | some lid, some ph, some pk =>
    some
      { launcher_id := lid
        p2_singleton_puzzle_hash := ph
        authentication_public_key := pk
        singleton_tip := row.singleton_tip
        singleton_tip_state := row.singleton_tip_state
        points := row.points
        difficulty := row.difficulty
        payout_instructions := row.payout_instructions
        is_pool_member := row.is_pool_member == 1 }
  | _, _, _ => none

/-- Row decoding inverts row encoding on valid records. -/
theorem row_to_farmer_record_farmerRecordToRow (r : FarmerRecord) (h : r.valid) :
    row_to_farmer_record (farmerRecordToRow r) = some r := by
  obtain ⟨-, h2, -, h4, -, h6, -, -, -, -⟩ := h
  rw [row_to_farmer_record]
  show (match fromhex (bytesToHex r.launcher_id),
      fromhex (bytesToHex r.p2_singleton_puzzle_hash),
      fromhex (bytesToHex r.authentication_public_key) with
    | some lid, some ph, some pk =>
      some
        { launcher_id := lid
          p2_singleton_puzzle_hash := ph
          authentication_public_key := pk
          singleton_tip := (farmerRecordToRow r).singleton_tip
          singleton_tip_state := (farmerRecordToRow r).singleton_tip_state
          points := (farmerRecordToRow r).points
          difficulty := (farmerRecordToRow r).difficulty
          payout_instructions := (farmerRecordToRow r).payout_instructions
          is_pool_member := (farmerRecordToRow r).is_pool_member == 1 }
    | _, _, _ => none) = some r
  rw [fromhex_bytesToHex _ h2, fromhex_bytesToHex _ h4, fromhex_bytesToHex _ h6]
  cases r with
  | mk lid ph pk tip tipSt pts diff pay member =>
    cases member <;> simp [farmerRecordToRow]

/-- `PoolStore.add_farmer_record`: `INSERT OR REPLACE` keyed on the hex of
`launcher_id` — any existing row with that key is deleted and the fresh row
inserted. -/
def add_farmer_record (store : List Row) (r : FarmerRecord) : List Row :=
  (store.filter fun row => row.launcher_id ≠ bytesToHex r.launcher_id)
    ++ [farmerRecordToRow r]

/-- `PoolStore.get_farmer_record`: `SELECT * … WHERE launcher_id = lid.hex()`,
then decode.  Outer `none` models a decoding exception; `some none` is the
"row not found" return of `None`. -/
def get_farmer_record (store : List Row) (lid : List Nat) :
    Option (Option FarmerRecord) :=
  match store.find? (fun row => row.launcher_id == bytesToHex lid) with
  | none => some none
  | some row =>
    match row_to_farmer_record row with
    | none => none
    | some r => some (some r)

theorem find?_append_of_none {α : Type} (p : α → Bool) (l₁ l₂ : List α)
    (h : l₁.find? p = none) : (l₁ ++ l₂).find? p = l₂.find? p := by
  induction l₁ with
  | nil => rfl
  | cons a l ih =>
    cases hpa : p a with
    | true => simp [List.find?_cons, hpa] at h
    | false =>
      simp only [List.cons_append, List.find?_cons, hpa] at h ⊢
      exact ih h

/-- Get after Upsert of a valid record finds exactly that record. -/
theorem get_farmer_record_add_farmer_record (store : List Row) (r : FarmerRecord)
    (h : r.valid) :
    get_farmer_record (add_farmer_record store r) r.launcher_id =
      some (some r) := by
  rw [get_farmer_record, add_farmer_record]
  have hnone :
      (store.filter fun row => row.launcher_id ≠ bytesToHex r.launcher_id).find?
        (fun row => row.launcher_id == bytesToHex r.launcher_id) = none := by
    rw [List.find?_eq_none]
    intro row hrow
    have := List.of_mem_filter hrow
    simpa using this
  rw [find?_append_of_none _ _ _ hnone]
  have hfind :
      ([farmerRecordToRow r].find?
        (fun row => row.launcher_id == bytesToHex r.launcher_id)) =
        some (farmerRecordToRow r) := by
    simp [List.find?, farmerRecordToRow]
  rw [hfind]
  simp [row_to_farmer_record_farmerRecordToRow r h]

/-- C1: for every valid record, Upsert (add_farmer_record) then Get
(get_farmer_record) on its launcher id returns the record itself — the
encode-to-row then decode-from-row round trip is the identity. -/
theorem upsert_then_get_roundtrip (store : List Row) (r : FarmerRecord)
    (h : r.valid) :
    get_farmer_record (add_farmer_record store r) r.launcher_id =
      some (some r) :=
  get_farmer_record_add_farmer_record store r h

/-- A concrete valid record used to instantiate theorems with hypotheses. -/
def sampleRecord : FarmerRecord where
  launcher_id := List.replicate 32 1
  p2_singleton_puzzle_hash := List.replicate 32 2
  authentication_public_key := List.replicate 48 3
  singleton_tip := [7, 8]
  singleton_tip_state := [9]
  points := 100
  difficulty := 5
  payout_instructions := bytesToHex (List.replicate 32 170)
  is_pool_member := true

theorem upsert_then_get_roundtrip_witness :
    sampleRecord.valid ∧
      get_farmer_record (add_farmer_record [] sampleRecord)
          sampleRecord.launcher_id = some (some sampleRecord) :=
  ⟨by decide, upsert_then_get_roundtrip [] sampleRecord (by decide)⟩

/-- `PoolStore.update_difficulty`:
`UPDATE farmer SET difficulty=? WHERE launcher_id=?` — every row whose key
equals the hex of `launcher_id` gets the new difficulty, all other rows are
untouched; no validation of the new value is performed. -/
def update_difficulty (store : List Row) (lid : List Nat) (d : Nat) : List Row :=
  store.map fun row =>
    if row.launcher_id = bytesToHex lid then { row with difficulty := d } else row

/-- `PoolStore.update_singleton`:
`UPDATE farmer SET singleton_tip=?, singleton_tip_state=?, is_pool_member=?
WHERE launcher_id=?`, with the membership flag encoded as 1 or 0. -/
def update_singleton (store : List Row) (lid : List Nat)
    (tip tipState : List Nat) (member : Bool) : List Row :=
  let m := if member then 1 else 0
  store.map fun row =>
    if row.launcher_id = bytesToHex lid then
      { row with singleton_tip := tip, singleton_tip_state := tipState,
                 is_pool_member := m }
    else row

/-- `PoolStore.clear_farmer_points`: `UPDATE farmer set points=0`. -/
def clear_farmer_points (store : List Row) : List Row :=
  store.map fun row => { row with points := 0 }

/-- The eight columns of a farmer row other than `points`. -/
def rowFrame (row : Row) :
    String × String × String × List Nat × List Nat × Nat × String × Nat :=
  (row.launcher_id, row.p2_singleton_puzzle_hash, row.authentication_public_key,
    row.singleton_tip, row.singleton_tip_state, row.difficulty,
    row.payout_instructions, row.is_pool_member)

/-- The eight columns of a farmer row other than `difficulty`. -/
def rowFrameD (row : Row) :
    String × String × String × List Nat × List Nat × Nat × String × Nat :=
  (row.launcher_id, row.p2_singleton_puzzle_hash, row.authentication_public_key,
    row.singleton_tip, row.singleton_tip_state, row.points,
    row.payout_instructions, row.is_pool_member)

/-- C6: ResetAllPoints zeroes every account's points and changes none of
the other eight columns of any row (rows kept in place, count preserved). -/
theorem clear_farmer_points_spec (store : List Row) :
    (∀ row ∈ clear_farmer_points store, row.points = 0) ∧
      (clear_farmer_points store).map rowFrame = store.map rowFrame := by
  constructor
  · intro row hrow
    rw [clear_farmer_points, List.mem_map] at hrow
    obtain ⟨orig, -, rfl⟩ := hrow
    rfl
  · rw [clear_farmer_points, List.map_map]
    rfl

theorem clear_farmer_points_spec_witness :
    ({ farmerRecordToRow sampleRecord with points := 0 } : Row).points = 0 :=
  (clear_farmer_points_spec [farmerRecordToRow sampleRecord]).1
    { farmerRecordToRow sampleRecord with points := 0 }
    (by simp [clear_farmer_points])

/-- C7: UpdateDifficulty touches only the `difficulty` column of rows whose
key matches, leaves every other row identical, and preserves row count and
order; in particular the other eight columns of every row are unchanged. -/
theorem update_difficulty_frame (store : List Row) (lid : List Nat) (d : Nat) :
    (update_difficulty store lid d).length = store.length ∧
      (update_difficulty store lid d).map rowFrameD = store.map rowFrameD ∧
      ∀ i (h1 : i < store.length) (h2 : i < (update_difficulty store lid d).length),
        (update_difficulty store lid d).get ⟨i, h2⟩ =
          (if (store.get ⟨i, h1⟩).launcher_id = bytesToHex lid
            then { store.get ⟨i, h1⟩ with difficulty := d }
            else store.get ⟨i, h1⟩) := by
  refine ⟨by simp [update_difficulty], ?_, ?_⟩
  · rw [update_difficulty, List.map_map]
    apply List.map_congr_left
    intro row hrow
    by_cases hkey : row.launcher_id = bytesToHex lid <;>
      simp [hkey, rowFrameD]
  · intro i h1 h2
    simp [update_difficulty, List.get_eq_getElem, List.getElem_map]

theorem update_difficulty_frame_witness :
    (update_difficulty [farmerRecordToRow sampleRecord]
        sampleRecord.launcher_id 9).get
      ⟨0, by simp [update_difficulty]⟩ =
      { farmerRecordToRow sampleRecord with difficulty := 9 } := by
  have h :=
    (update_difficulty_frame [farmerRecordToRow sampleRecord]
        sampleRecord.launcher_id 9).2.2 0 (by simp) (by simp [update_difficulty])
  rw [h]
  decide

/-- C3 (counterexample): UpdateDifficulty performs no validation — called
with difficulty 0 on a store holding one record of difficulty 5, it stores
the zero value instead of failing. -/
theorem update_difficulty_zero_stored :
    (update_difficulty [farmerRecordToRow sampleRecord]
        sampleRecord.launcher_id 0).map Row.difficulty = [0] ∧
      (farmerRecordToRow sampleRecord).difficulty = 5 :=
  ⟨by decide, rfl⟩

/-- C3 (amended): update_difficulty does not validate its argument — a call
with difficulty 0 succeeds and stores 0 in every row whose key matches the
given launcher id, so a stored difficulty can become zero. -/
theorem update_difficulty_zero_no_validation (store : List Row) (lid : List Nat) :
    ∀ row ∈ update_difficulty store lid 0,
      row.launcher_id = bytesToHex lid → row.difficulty = 0 := by
  intro row hrow hkey
  rw [update_difficulty, List.mem_map] at hrow
  obtain ⟨orig, -, rfl⟩ := hrow
  by_cases h : orig.launcher_id = bytesToHex lid
  · simp [h]
  · rw [if_neg h] at hkey ⊢
    exact absurd hkey h

theorem update_difficulty_zero_no_validation_witness :
    ({ farmerRecordToRow sampleRecord with difficulty := 0 } : Row).difficulty
      = 0 :=
  update_difficulty_zero_no_validation [farmerRecordToRow sampleRecord]
    sampleRecord.launcher_id
    { farmerRecordToRow sampleRecord with difficulty := 0 }
    (by decide) (by rfl)

/-- C8: on a launcher id matching no stored row, both update operations are
no-op successes: they raise nothing and return the store unchanged. -/
theorem update_missing_key_noop (store : List Row) (lid : List Nat) (d : Nat)
    (tip tipState : List Nat) (member : Bool)
    (h : ∀ row ∈ store, row.launcher_id ≠ bytesToHex lid) :
    update_difficulty store lid d = store ∧
      update_singleton store lid tip tipState member = store := by
  constructor
  · rw [update_difficulty]
    conv_rhs => rw [← List.map_id store]
    apply List.map_congr_left
    intro row hrow
    simp [if_neg (h row hrow)]
  · rw [update_singleton]
    conv_rhs => rw [← List.map_id store]
    apply List.map_congr_left
    intro row hrow
    simp [if_neg (h row hrow)]

theorem update_missing_key_noop_witness :
    update_difficulty [farmerRecordToRow sampleRecord] (List.replicate 32 4) 7 =
        [farmerRecordToRow sampleRecord] ∧
      update_singleton [farmerRecordToRow sampleRecord] (List.replicate 32 4)
          [1] [2] false = [farmerRecordToRow sampleRecord] :=
  update_missing_key_noop [farmerRecordToRow sampleRecord]
    (List.replicate 32 4) 7 [1] [2] false (by decide)

/-- Upsert of `r'` on top of an upsert of `r` with the same launcher id:
the store is the old rows under other keys plus the single fresh row of
`r'`. -/
theorem add_add_same_key (store : List Row) (r r' : FarmerRecord)
    (heq : r.launcher_id = r'.launcher_id) :
    add_farmer_record (add_farmer_record store r) r' =
      (store.filter fun row => row.launcher_id ≠ bytesToHex r'.launcher_id)
        ++ [farmerRecordToRow r'] := by
  rw [add_farmer_record, add_farmer_record, heq, List.filter_append]
  have h1 :
      ((store.filter fun row =>
          row.launcher_id ≠ bytesToHex r'.launcher_id).filter fun row =>
          row.launcher_id ≠ bytesToHex r'.launcher_id) =
        store.filter fun row => row.launcher_id ≠ bytesToHex r'.launcher_id := by
    rw [List.filter_eq_self]
    intro row hrow
    exact (List.mem_filter.mp hrow).2
  have h2 :
      (([farmerRecordToRow r].filter fun row =>
          row.launcher_id ≠ bytesToHex r'.launcher_id)) = [] := by
    simp [farmerRecordToRow, heq]
  rw [h1, h2, List.append_nil]

/-- C5: upserting `r'` over `r` with the same launcher id leaves exactly
`r'` under that key — Get returns `r'`, the only row with that key is the
fresh encoding of `r'` (no field of `r` survives, no duplicate row), and
rows under every other key are exactly those of the original store. -/
theorem upsert_replaces (store : List Row) (r r' : FarmerRecord)
    (hr' : r'.valid) (heq : r.launcher_id = r'.launcher_id) :
    get_farmer_record (add_farmer_record (add_farmer_record store r) r')
        r'.launcher_id = some (some r') ∧
      ((add_farmer_record (add_farmer_record store r) r').filter fun row =>
          row.launcher_id = bytesToHex r'.launcher_id) =
        [farmerRecordToRow r'] ∧
      ((add_farmer_record (add_farmer_record store r) r').filter fun row =>
          row.launcher_id ≠ bytesToHex r'.launcher_id) =
        store.filter fun row => row.launcher_id ≠ bytesToHex r'.launcher_id := by
  refine ⟨get_farmer_record_add_farmer_record _ r' hr', ?_, ?_⟩
  · rw [add_add_same_key store r r' heq, List.filter_append]
    have h1 :
        ((store.filter fun row =>
            row.launcher_id ≠ bytesToHex r'.launcher_id).filter fun row =>
            row.launcher_id = bytesToHex r'.launcher_id) = [] := by
      rw [List.filter_eq_nil_iff]
      intro row hrow
      have := (List.mem_filter.mp hrow).2
      simpa using this
    rw [h1]
    simp [farmerRecordToRow]
  · rw [add_add_same_key store r r' heq, List.filter_append]
    have h1 :
        ((store.filter fun row =>
            row.launcher_id ≠ bytesToHex r'.launcher_id).filter fun row =>
            row.launcher_id ≠ bytesToHex r'.launcher_id) =
          store.filter fun row => row.launcher_id ≠ bytesToHex r'.launcher_id := by
      rw [List.filter_eq_self]
      intro row hrow
      exact (List.mem_filter.mp hrow).2
    have h2 :
        (([farmerRecordToRow r'].filter fun row =>
            row.launcher_id ≠ bytesToHex r'.launcher_id)) = [] := by
      simp [farmerRecordToRow]
    rw [h1, h2, List.append_nil]

/-- A second valid record with the same launcher id as `sampleRecord` but
every other field different. -/
def sampleRecord2 : FarmerRecord where
  launcher_id := List.replicate 32 1
  p2_singleton_puzzle_hash := List.replicate 32 6
  authentication_public_key := List.replicate 48 7
  singleton_tip := [1]
  singleton_tip_state := [2, 3]
  points := 42
  difficulty := 11
  payout_instructions := bytesToHex (List.replicate 32 187)
  is_pool_member := false

theorem upsert_replaces_witness :
    get_farmer_record
        (add_farmer_record (add_farmer_record [] sampleRecord) sampleRecord2)
        sampleRecord2.launcher_id = some (some sampleRecord2) ∧
      ((add_farmer_record (add_farmer_record [] sampleRecord) sampleRecord2).filter
          fun row => row.launcher_id = bytesToHex sampleRecord2.launcher_id) =
        [farmerRecordToRow sampleRecord2] :=
  ⟨(upsert_replaces [] sampleRecord sampleRecord2 (by decide) (by decide)).1,
    (upsert_replaces [] sampleRecord sampleRecord2 (by decide) (by decide)).2.1⟩

/-- One row of the `partial` table: the hex text of the launcher id, the
timestamp, and the difficulty in effect at submission time. -/
structure PartialEntry where
  launcher_id : String
  timestamp : Nat
  difficulty : Nat
  deriving DecidableEq, Repr

/-- `PoolStore.add_partial`: `INSERT into partial VALUES(?, ?, ?)` with the
hex of the launcher id — a plain append. -/
def addPartial (ledger : List PartialEntry) (lid : List Nat)
    (timestamp difficulty : Nat) : List PartialEntry :=
  ledger ++ [⟨bytesToHex lid, timestamp, difficulty⟩]

/-- The `ORDER BY timestamp DESC` relation on partial rows. -/
def tsGE (a b : PartialEntry) : Prop := b.timestamp ≤ a.timestamp

instance : DecidableRel tsGE := fun a b => Nat.decLe b.timestamp a.timestamp

instance : IsTotal PartialEntry tsGE := ⟨fun a b => le_total b.timestamp a.timestamp⟩

instance : IsTrans PartialEntry tsGE := ⟨fun _ _ _ hab hbc => le_trans hbc hab⟩

/-- `PoolStore.get_recent_partials`:
`SELECT timestamp, difficulty from partial WHERE launcher_id=?
ORDER BY timestamp DESC LIMIT ?`.  Ties in the sort are broken
deterministically (insertion sort).  SQLite's `LIMIT` with a negative bound
means "no upper bound", so a negative count keeps every matching row;
otherwise the first `count` rows are kept. -/
def get_recent_partials (ledger : List PartialEntry) (lid : List Nat)
    (count : Int) : List (Nat × Nat) :=
  let matching := ledger.filter fun e => e.launcher_id = bytesToHex lid
  let sorted := matching.insertionSort tsGE
  let limited := if count < 0 then sorted else sorted.take count.toNat
  limited.map fun e => (e.timestamp, e.difficulty)

/-- A one-entry ledger used for concrete evaluations. -/
def samplePartialLedger : List PartialEntry :=
  [⟨bytesToHex (List.replicate 32 1), 10, 1⟩]

/-- C4 (counterexample): with one stored entry for the launcher, a query
with limit −1 returns that entry — SQLite treats a negative `LIMIT` as "no
upper bound" — and not the empty sequence the claim requires for every
limit ≤ 0. -/
theorem recent_partials_negative_limit :
    get_recent_partials samplePartialLedger (List.replicate 32 1) (-1)
        = [(10, 1)] ∧
      ([(10, 1)] : List (Nat × Nat)) ≠ [] := by
  constructor
  · decide
  · decide

/-- C4 (amended): for every launcher id and integer limit,
`get_recent_partials` returns at most `limit` entries when `limit ≥ 0`, all
of them projections of stored rows of that launcher, in non-increasing
timestamp order; `limit = 0` yields the empty sequence; and whenever
`limit` is negative or at least the number of stored matching rows, the
result is a permutation of all of them (a negative limit is unbounded, not
empty). -/
theorem recent_partials_spec (ledger : List PartialEntry) (lid : List Nat)
    (count : Int) :
    (0 ≤ count → (get_recent_partials ledger lid count).length ≤ count.toNat) ∧
      (∀ x ∈ get_recent_partials ledger lid count,
        ∃ e ∈ ledger, e.launcher_id = bytesToHex lid ∧
          x = (e.timestamp, e.difficulty)) ∧
      (get_recent_partials ledger lid count).Sorted
        (fun a b : Nat × Nat => b.1 ≤ a.1) ∧
      (count = 0 → get_recent_partials ledger lid count = []) ∧
      ((count < 0 ∨
          ((ledger.filter fun e => e.launcher_id = bytesToHex lid).length : Int)
            ≤ count) →
        (get_recent_partials ledger lid count).Perm
          ((ledger.filter fun e => e.launcher_id = bytesToHex lid).map
            fun e => (e.timestamp, e.difficulty))) := by
  have hperm :
      ((ledger.filter fun e => e.launcher_id = bytesToHex lid).insertionSort
        tsGE).Perm (ledger.filter fun e => e.launcher_id = bytesToHex lid) :=
    List.perm_insertionSort tsGE _
  have hsorted :
      ((ledger.filter fun e => e.launcher_id = bytesToHex lid).insertionSort
        tsGE).Sorted tsGE :=
    List.sorted_insertionSort tsGE _
  refine ⟨?_, ?_, ?_, ?_, ?_⟩
  · intro hcount
    simp only [get_recent_partials, if_neg (not_lt.mpr hcount), List.length_map]
    exact le_trans (List.length_take _ _ ▸ min_le_left _ _) le_rfl
  · intro x hx
    simp only [get_recent_partials] at hx
    obtain ⟨e, he, rfl⟩ := List.mem_map.mp hx
    have he' : e ∈ (ledger.filter fun e => e.launcher_id = bytesToHex lid) := by
      rcases lt_or_ge count 0 with hc | hc
      · rw [if_pos hc] at he
        exact hperm.mem_iff.mp he
      · rw [if_neg (not_lt.mpr hc)] at he
        exact hperm.mem_iff.mp (List.take_subset _ _ he)
    obtain ⟨hmem, hpred⟩ := List.mem_filter.mp he'
    exact ⟨e, hmem, by simpa using hpred, rfl⟩
  · simp only [get_recent_partials]
    have hlim :
        (if count < 0 then
            (ledger.filter fun e => e.launcher_id = bytesToHex lid).insertionSort
              tsGE
          else
            ((ledger.filter fun e => e.launcher_id = bytesToHex lid).insertionSort
              tsGE).take count.toNat).Sorted tsGE := by
      rcases lt_or_ge count 0 with hc | hc
      · rwa [if_pos hc]
      · rw [if_neg (not_lt.mpr hc)]
        exact List.Pairwise.sublist (List.take_sublist _ _) hsorted
    rw [List.Sorted, List.pairwise_map]
    exact hlim.imp fun h => h
  · intro hc
    subst hc
    simp [get_recent_partials]
  · intro hc
    simp only [get_recent_partials]
    rcases lt_or_ge count 0 with hneg | hpos
    · rw [if_pos hneg]
      exact hperm.map _
    · have hlen :
          ((ledger.filter fun e => e.launcher_id = bytesToHex lid).insertionSort
            tsGE).length ≤ count.toNat := by
        rw [hperm.length_eq]
        rcases hc with hc | hc
        · omega
        · omega
      rw [if_neg (not_lt.mpr hpos), List.take_of_length_le hlen]
      exact hperm.map _

theorem recent_partials_spec_witness :
    (get_recent_partials samplePartialLedger (List.replicate 32 1) 2).length
        ≤ (2 : Int).toNat ∧
      get_recent_partials samplePartialLedger (List.replicate 32 1) 0 = [] :=
  ⟨(recent_partials_spec samplePartialLedger (List.replicate 32 1) 2).1
      (by decide),
    (recent_partials_spec samplePartialLedger (List.replicate 32 1) 0).2.2.2.1
      rfl⟩

/-- `bytes32(bytes.fromhex(s))`: hex-decode and require exactly 32 bytes;
`none` models the exception on malformed hex or wrong length. -/
def bytes32ofHex (s : String) : Option (List Nat) :=
  match fromhex s with
  | none => none
  | some bs => if bs.length = 32 then some bs else none

/-- One step of the accumulation dict of
`get_farmer_points_and_payout_instructions`:
`accumulated[ph] += points` if the key is present (Python dicts keep the
entry in place), else `accumulated[ph] = points` (appended, insertion
order). -/
def accAdd : List (List Nat × Nat) → List Nat → Nat → List (List Nat × Nat)
  | [], ph, pts => [(ph, pts)]
  | kv :: rest, ph, pts =>
    if kv.1 = ph then (kv.1, kv.2 + pts) :: rest else kv :: accAdd rest ph pts

/-- The row loop of `get_farmer_points_and_payout_instructions`: decode each
`payout_instructions` to 32 bytes (first failure aborts) and accumulate the
points under the decoded key. -/
def accumulatePoints :
    List (Nat × String) → List (List Nat × Nat) → Option (List (List Nat × Nat))
  | [], acc => some acc
  | (pts, pay) :: rest, acc =>
    match bytes32ofHex pay with
    | none => none
    | some ph => accumulatePoints rest (accAdd acc ph pts)

/-- `PoolStore.get_farmer_points_and_payout_instructions`:
`SELECT points, payout_instructions from farmer`, accumulate per decoded
32-byte key, then emit `(total_points, key)` pairs in dict order. -/
def get_farmer_points_and_payout_instructions (store : List Row) :
    Option (List (Nat × List Nat)) :=
  (accumulatePoints
      (store.map fun row => (row.points, row.payout_instructions)) []).map
    fun acc => acc.map fun kv => (kv.2, kv.1)

/-- The keys of the accumulation dict, in insertion order. -/
def keysOf (acc : List (List Nat × Nat)) : List (List Nat) :=
  acc.map Prod.fst

/-- Total stored under key `k` in the accumulation dict (0 when absent). -/
def totOf (acc : List (List Nat × Nat)) (k : List Nat) : Nat :=
  (acc.map fun kv => if kv.1 = k then kv.2 else 0).sum

/-- Sum of the points of the rows whose selected pair decodes to `k`. -/
def rowsTot (rows : List (Nat × String)) (k : List Nat) : Nat :=
  (rows.map fun pr => if bytes32ofHex pr.2 = some k then pr.1 else 0).sum

/-- Sum of the points of the accounts whose payout instructions decode to
`k`. -/
def sumPointsTo (store : List Row) (k : List Nat) : Nat :=
  (store.map fun row =>
    if bytes32ofHex row.payout_instructions = some k then row.points else 0).sum

theorem totOf_cons (kv : List Nat × Nat) (rest : List (List Nat × Nat))
    (k : List Nat) :
    totOf (kv :: rest) k = (if kv.1 = k then kv.2 else 0) + totOf rest k := by
  simp [totOf]

theorem accAdd_totOf (acc : List (List Nat × Nat)) (ph : List Nat) (pts : Nat)
    (k : List Nat) :
    totOf (accAdd acc ph pts) k = totOf acc k + (if ph = k then pts else 0) := by
  induction acc with
  | nil =>
    simp only [accAdd, totOf, List.map_cons, List.map_nil, List.sum_cons,
      List.sum_nil]
    omega
  | cons kv rest ih =>
    rw [accAdd]
    by_cases hkey : kv.1 = ph
    · rw [if_pos hkey, totOf_cons, totOf_cons]
      subst hkey
      by_cases hk : kv.1 = k
      · subst hk; simp; omega
      · simp [hk]
    · rw [if_neg hkey, totOf_cons, totOf_cons, ih]
      omega

theorem accAdd_keysOf (acc : List (List Nat × Nat)) (ph : List Nat) (pts : Nat) :
    keysOf (accAdd acc ph pts) =
      if ph ∈ keysOf acc then keysOf acc else keysOf acc ++ [ph] := by
  induction acc with
  | nil => simp [accAdd, keysOf]
  | cons kv rest ih =>
    rw [accAdd]
    by_cases hkey : kv.1 = ph
    · rw [if_pos hkey]
      have hmem : ph ∈ keysOf (kv :: rest) := by
        simp [keysOf, ← hkey]
      rw [if_pos hmem]
      simp [keysOf, hkey]
    · rw [if_neg hkey]
      have hne : ph ≠ kv.1 := fun h => hkey h.symm
      by_cases hmem : ph ∈ keysOf rest
      · have : ph ∈ keysOf (kv :: rest) := by simp [keysOf]; right; simpa [keysOf] using hmem
        rw [if_pos this]
        simp only [keysOf, List.map_cons] at ih ⊢
        rw [ih, if_pos (by simpa [keysOf] using hmem)]
      · have : ph ∉ keysOf (kv :: rest) := by
          simp only [keysOf, List.map_cons, List.mem_cons]
          rintro (h | h)
          · exact hne h
          · exact hmem (by simpa [keysOf] using h)
        rw [if_neg this]
        simp only [keysOf, List.map_cons] at ih ⊢
        rw [ih, if_neg (by simpa [keysOf] using hmem)]
        simp

theorem accAdd_mem_keysOf (acc : List (List Nat × Nat)) (ph : List Nat)
    (pts : Nat) (k : List Nat) :
    k ∈ keysOf (accAdd acc ph pts) ↔ k ∈ keysOf acc ∨ k = ph := by
  rw [accAdd_keysOf]
  by_cases hmem : ph ∈ keysOf acc
  · rw [if_pos hmem]
    constructor
    · exact Or.inl
    · rintro (h | rfl)
      · exact h
      · exact hmem
  · rw [if_neg hmem]
    simp

theorem accAdd_nodup (acc : List (List Nat × Nat)) (ph : List Nat) (pts : Nat)
    (h : (keysOf acc).Nodup) : (keysOf (accAdd acc ph pts)).Nodup := by
  rw [accAdd_keysOf]
  by_cases hmem : ph ∈ keysOf acc
  · rwa [if_pos hmem]
  · rw [if_neg hmem, List.nodup_append]
    exact ⟨h, List.nodup_singleton ph, List.disjoint_singleton.mpr hmem⟩

theorem totOf_eq_zero (acc : List (List Nat × Nat)) (k : List Nat)
    (h : k ∉ keysOf acc) : totOf acc k = 0 := by
  induction acc with
  | nil => rfl
  | cons kv rest ih =>
    rw [totOf_cons]
    have h1 : kv.1 ≠ k := by
      intro hk
      exact h (by simp [keysOf, hk])
    have h2 : k ∉ keysOf rest := fun hk => h (by simp [keysOf] at hk ⊢; right; exact hk)
    rw [if_neg h1, ih h2]

theorem totOf_eq_of_mem (acc : List (List Nat × Nat))
    (hnd : (keysOf acc).Nodup) (kv : List Nat × Nat) (hkv : kv ∈ acc) :
    totOf acc kv.1 = kv.2 := by
  induction acc with
  | nil => cases hkv
  | cons hd rest ih =>
    simp only [keysOf, List.map_cons, List.nodup_cons] at hnd
    rcases List.mem_cons.mp hkv with rfl | hmem
    · rw [totOf_cons, if_pos rfl,
        totOf_eq_zero rest kv.1 (by simpa [keysOf] using hnd.1)]
      omega
    · have hne : hd.1 ≠ kv.1 := by
        intro h
        exact hnd.1 (h ▸ List.mem_map_of_mem Prod.fst hmem)
      rw [totOf_cons, if_neg hne, ih (by simpa [keysOf] using hnd.2) hmem]
      simp

/-- Invariant of the accumulation loop: totals are summed per decoded key,
keys are exactly the old keys plus the decoded keys of the processed rows,
and key uniqueness is preserved. -/
theorem accumulatePoints_spec (rows : List (Nat × String)) :
    ∀ acc res, accumulatePoints rows acc = some res →
      (∀ k, totOf res k = totOf acc k + rowsTot rows k) ∧
        (∀ k, k ∈ keysOf res ↔
          k ∈ keysOf acc ∨ ∃ pr ∈ rows, bytes32ofHex pr.2 = some k) ∧
        ((keysOf acc).Nodup → (keysOf res).Nodup) := by
  induction rows with
  | nil =>
    intro acc res h
    rw [accumulatePoints] at h
    cases h
    refine ⟨fun k => by simp [rowsTot], fun k => by simp, id⟩
  | cons pr rest ih =>
    intro acc res h
    obtain ⟨pts, pay⟩ := pr
    rw [accumulatePoints] at h
    cases hdec : bytes32ofHex pay with
    | none => rw [hdec] at h; cases h
    | some ph =>
      rw [hdec] at h
      obtain ⟨h1, h2, h3⟩ := ih (accAdd acc ph pts) res h
      refine ⟨?_, ?_, ?_⟩
      · intro k
        rw [h1 k, accAdd_totOf]
        simp only [rowsTot, List.map_cons, List.sum_cons, hdec,
          Option.some.injEq]
        by_cases hk : ph = k
        · subst hk; simp; omega
        · simp [hk]
      · intro k
        rw [h2 k, accAdd_mem_keysOf]
        constructor
        · rintro ((hmem | rfl) | ⟨pr', hpr', hdec'⟩)
          · exact Or.inl hmem
          · exact Or.inr ⟨(pts, pay), List.mem_cons_self _ _, by rw [hdec]⟩
          · exact Or.inr ⟨pr', List.mem_cons_of_mem _ hpr', hdec'⟩
        · rintro (hmem | ⟨pr', hpr', hdec'⟩)
          · exact Or.inl (Or.inl hmem)
          · rcases List.mem_cons.mp hpr' with rfl | hmem'
            · rw [hdec] at hdec'
              exact Or.inl (Or.inr (Option.some.injEq _ _ ▸ hdec'.symm))
            · exact Or.inr ⟨pr', hmem', hdec'⟩
      · intro hnd
        exact h3 (accAdd_nodup acc ph pts hnd)

/-- A row whose payout instructions decode fatally aborts the whole
aggregation query. -/
theorem accumulatePoints_none (rows : List (Nat × String)) :
    ∀ pr ∈ rows, bytes32ofHex pr.2 = none →
      ∀ acc, accumulatePoints rows acc = none := by
  induction rows with
  | nil => intro pr h; cases h
  | cons hd rest ih =>
    intro pr hpr hdec acc
    obtain ⟨pts, pay⟩ := hd
    rw [accumulatePoints]
    cases hhd : bytes32ofHex pay with
    | none => rfl
    | some ph =>
      rcases List.mem_cons.mp hpr with rfl | hmem
      · rw [hhd] at hdec; cases hdec
      · exact ih pr hmem hdec (accAdd acc ph pts)

/-- If every row decodes, the aggregation loop succeeds. -/
theorem accumulatePoints_isSome (rows : List (Nat × String))
    (h : ∀ pr ∈ rows, ∃ b, bytes32ofHex pr.2 = some b) :
    ∀ acc, ∃ res, accumulatePoints rows acc = some res := by
  induction rows with
  | nil => exact fun acc => ⟨acc, rfl⟩
  | cons hd rest ih =>
    intro acc
    obtain ⟨pts, pay⟩ := hd
    obtain ⟨b, hb⟩ := h (pts, pay) (List.mem_cons_self _ _)
    rw [accumulatePoints]
    rw [hb]
    exact ih (fun pr hpr => h pr (List.mem_cons_of_mem _ hpr)) (accAdd acc b pts)

theorem rowsTot_map (store : List Row) (k : List Nat) :
    rowsTot (store.map fun row => (row.points, row.payout_instructions)) k =
      sumPointsTo store k := by
  rw [rowsTot, sumPointsTo, List.map_map]
  rfl

/-- C10: the aggregation key is the hex-decoded 32-byte value of
`payout_instructions`, not the literal string — a row that does not decode
to exactly 32 bytes aborts the query with an error, each decoded value
appears at most once in the output, and each total sums the points of all
rows decoding to that value regardless of their spelling (so two distinct
strings decoding to the same bytes are merged). -/
theorem points_key_is_decoded_bytes (store : List Row) :
    (∀ row ∈ store, bytes32ofHex row.payout_instructions = none →
        get_farmer_points_and_payout_instructions store = none) ∧
      ∀ res, get_farmer_points_and_payout_instructions store = some res →
        (res.map Prod.snd).Nodup ∧ ∀ p ∈ res, p.1 = sumPointsTo store p.2 := by
  constructor
  · intro row hrow hdec
    have hnone :=
      accumulatePoints_none
        (store.map fun row => (row.points, row.payout_instructions))
        (row.points, row.payout_instructions)
        (List.mem_map_of_mem (fun row => (row.points, row.payout_instructions))
          hrow)
        hdec []
    rw [get_farmer_points_and_payout_instructions, hnone]
    rfl
  · intro res hres
    rw [get_farmer_points_and_payout_instructions] at hres
    obtain ⟨acc, hacc, rfl⟩ := Option.map_eq_some'.mp hres
    obtain ⟨h1, h2, h3⟩ := accumulatePoints_spec _ [] acc hacc
    have hnd : (keysOf acc).Nodup := h3 (by simp [keysOf])
    have hkeys : (acc.map fun kv => (kv.2, kv.1)).map Prod.snd = keysOf acc := by
      rw [List.map_map]; rfl
    refine ⟨hkeys ▸ hnd, ?_⟩
    intro p hp
    obtain ⟨kv, hkv, rfl⟩ := List.mem_map.mp hp
    show kv.2 = sumPointsTo store kv.1
    rw [← totOf_eq_of_mem acc hnd kv hkv, h1 kv.1, ← rowsTot_map store kv.1]
    simp [totOf]

/-- A farmer row whose payout instructions are not hex at all. -/
def badPayoutRow : Row :=
  { farmerRecordToRow sampleRecord with payout_instructions := "zz" }

theorem points_key_is_decoded_bytes_witness :
    get_farmer_points_and_payout_instructions [badPayoutRow] = none :=
  (points_key_is_decoded_bytes [badPayoutRow]).1 badPayoutRow
    (List.mem_singleton_self _) (by decide)

/-- A third valid record, under its own launcher id, whose payout
instructions are the lowercase hex spelling of 32 `0xaa` bytes. -/
def sampleRecord3 : FarmerRecord where
  launcher_id := List.replicate 32 5
  p2_singleton_puzzle_hash := List.replicate 32 6
  authentication_public_key := List.replicate 48 7
  singleton_tip := [4]
  singleton_tip_state := [5]
  points := 2
  difficulty := 3
  payout_instructions := String.mk (List.replicate 64 'a')
  is_pool_member := true

/-- A farmer row whose payout instructions are the uppercase hex spelling
of the same 32 `0xaa` bytes as `sampleRecord3`, with 1 point. -/
def rowHexUpper : Row :=
  { farmerRecordToRow sampleRecord with
      payout_instructions := String.mk (List.replicate 64 'A'), points := 1 }

/-- C2 (counterexample): two accounts whose payout strings are distinct
(`"AA…"` vs `"aa…"`) but decode to the same 32 bytes produce a single
merged pair `(1 + 2, 0xaa…)` — not one pair per distinct string. -/
theorem points_per_string_counterexample :
    rowHexUpper.payout_instructions ≠
        (farmerRecordToRow sampleRecord3).payout_instructions ∧
      get_farmer_points_and_payout_instructions
          [rowHexUpper, farmerRecordToRow sampleRecord3] =
        some [(3, List.replicate 32 170)] := by
  constructor
  · decide
  · decide

/-- C2 (amended): whenever every stored `payout_instructions` is a valid
hex encoding of exactly 32 bytes, the aggregation succeeds and returns one
`(total_points, destination)` pair per distinct decoded 32-byte value —
distinct strings decoding to the same bytes are merged — where the total
sums the points of exactly the accounts decoding to that value; every
decoded value appears exactly once, and zero-point accounts still
contribute their destination. -/
theorem points_by_destination_grouped (store : List Row)
    (h : ∀ row ∈ store, ∃ b, bytes32ofHex row.payout_instructions = some b) :
    ∃ res, get_farmer_points_and_payout_instructions store = some res ∧
      (res.map Prod.snd).Nodup ∧
      (∀ k, k ∈ res.map Prod.snd ↔
        ∃ row ∈ store, bytes32ofHex row.payout_instructions = some k) ∧
      ∀ p ∈ res, p.1 = sumPointsTo store p.2 := by
  have hrows : ∀ pr ∈ (store.map fun row => (row.points, row.payout_instructions)),
      ∃ b, bytes32ofHex pr.2 = some b := by
    intro pr hpr
    obtain ⟨row, hrow, rfl⟩ := List.mem_map.mp hpr
    exact h row hrow
  obtain ⟨acc, hacc⟩ := accumulatePoints_isSome _ hrows []
  obtain ⟨h1, h2, h3⟩ := accumulatePoints_spec _ [] acc hacc
  have hnd : (keysOf acc).Nodup := h3 (by simp [keysOf])
  have hkeys : (acc.map fun kv => (kv.2, kv.1)).map Prod.snd = keysOf acc := by
    rw [List.map_map]; rfl
  refine ⟨acc.map fun kv => (kv.2, kv.1), ?_, hkeys ▸ hnd, ?_, ?_⟩
  · rw [get_farmer_points_and_payout_instructions, hacc]
    rfl
  · intro k
    rw [hkeys, h2 k]
    constructor
    · rintro (hmem | ⟨pr, hpr, hdec⟩)
      · simp [keysOf] at hmem
      · obtain ⟨row, hrow, rfl⟩ := List.mem_map.mp hpr
        exact ⟨row, hrow, hdec⟩
    · rintro ⟨row, hrow, hdec⟩
      exact Or.inr ⟨(row.points, row.payout_instructions),
        List.mem_map_of_mem (fun row => (row.points, row.payout_instructions))
          hrow, hdec⟩
  · intro p hp
    obtain ⟨kv, hkv, rfl⟩ := List.mem_map.mp hp
    show kv.2 = sumPointsTo store kv.1
    rw [← totOf_eq_of_mem acc hnd kv hkv, h1 kv.1, ← rowsTot_map store kv.1]
    simp [totOf]

theorem points_by_destination_grouped_witness :
    get_farmer_points_and_payout_instructions [farmerRecordToRow sampleRecord]
      ≠ none := by
  obtain ⟨res, hres, -, -, -⟩ :=
    points_by_destination_grouped [farmerRecordToRow sampleRecord]
      (by
        intro row hrow
        rw [List.mem_singleton.mp hrow]
        exact ⟨List.replicate 32 170, by decide⟩)
  simp [hres]

/-- The list comprehension of `get_farmer_records_for_p2_singleton_phs`:
decode every selected row, the first failure aborting the query. -/
def decodeRows : List Row → Option (List FarmerRecord)
  | [] => some []
  | row :: rest =>
    match row_to_farmer_record row with
    | none => none
    | some r => (decodeRows rest).map fun rs => r :: rs

/-- `PoolStore.get_farmer_records_for_p2_singleton_phs`: an empty input set
returns `[]` without querying; otherwise
`SELECT * from farmer WHERE p2_singleton_puzzle_hash in (…)` against the
hex spellings of the given hashes, decoding every matching row. -/
def get_farmer_records_for_p2_singleton_phs (store : List Row)
    (phs : List (List Nat)) : Option (List FarmerRecord) :=
  if phs.isEmpty then some []
  else
    decodeRows (store.filter fun row =>
      row.p2_singleton_puzzle_hash ∈ phs.map bytesToHex)

theorem decodeRows_map_farmerRecordToRow (rs : List FarmerRecord)
    (h : ∀ r ∈ rs, r.valid) :
    decodeRows (rs.map farmerRecordToRow) = some rs := by
  induction rs with
  | nil => rfl
  | cons r rest ih =>
    rw [List.map_cons, decodeRows,
      row_to_farmer_record_farmerRecordToRow r (h r (List.mem_cons_self _ _)),
      ih fun x hx => h x (List.mem_cons_of_mem _ hx)]
    rfl

/-- C9: on a store of valid records, the lookup returns the empty list for
the empty hash set, and for any set of (32-byte) hashes exactly the records
whose `p2_singleton_puzzle_hash` lies in the set. -/
theorem lookup_by_puzzle_hashes_spec (rs : List FarmerRecord)
    (phs : List (List Nat)) (hrs : ∀ r ∈ rs, r.valid)
    (hphs : ∀ ph ∈ phs, validBytes ph) :
    get_farmer_records_for_p2_singleton_phs (rs.map farmerRecordToRow) [] =
        some [] ∧
      get_farmer_records_for_p2_singleton_phs (rs.map farmerRecordToRow) phs =
        some (rs.filter fun r =>
          decide (r.p2_singleton_puzzle_hash ∈ phs)) := by
  refine ⟨rfl, ?_⟩
  match phs with
  | [] =>
    show some [] = _
    simp
  | p :: ps =>
    rw [get_farmer_records_for_p2_singleton_phs, if_neg (by simp),
      List.filter_map]
    have hcongr :
        rs.filter ((fun row =>
            decide (row.p2_singleton_puzzle_hash ∈ (p :: ps).map bytesToHex))
          ∘ farmerRecordToRow) =
          rs.filter fun r => decide (r.p2_singleton_puzzle_hash ∈ p :: ps) := by
      apply List.filter_congr
      intro r hr
      apply decide_eq_decide.mpr
      show bytesToHex r.p2_singleton_puzzle_hash ∈ (p :: ps).map bytesToHex ↔ _
      constructor
      · intro hmem
        obtain ⟨ph, hph, heq⟩ := List.mem_map.mp hmem
        have hval : validBytes r.p2_singleton_puzzle_hash :=
          (hrs r hr).2.2.2.1
        rw [← bytesToHex_injective (hphs ph hph) hval heq]
        exact hph
      · exact List.mem_map_of_mem bytesToHex
    rw [hcongr]
    apply decodeRows_map_farmerRecordToRow
    intro r hr
    exact hrs r (List.mem_filter.mp hr).1

theorem lookup_by_puzzle_hashes_spec_witness :
    get_farmer_records_for_p2_singleton_phs
        ([sampleRecord, sampleRecord3].map farmerRecordToRow)
        [List.replicate 32 2] =
      some ([sampleRecord, sampleRecord3].filter fun r =>
        decide (r.p2_singleton_puzzle_hash ∈ [List.replicate 32 2])) :=
  (lookup_by_puzzle_hashes_spec [sampleRecord, sampleRecord3]
    [List.replicate 32 2] (by decide) (by decide)).2

end PoolStore
